import Mathlib

/-!
Shallow embedding of `hash.go` from ur0/pokecrypt-go.

The 128-bit value type `Uint128` is a pair of 64-bit limbs `{high, low}`
(Go: `type Uint128 [2]uint64 // { high, low }`, index 0 = high).
Machine `uint64` arithmetic is modelled on `Nat` with explicit `% 2^64`
at every operation that can wrap in Go.  Slice accesses that would panic
in Go are modelled with `Option`-returning operations.
-/

namespace Pokecrypt

set_option maxRecDepth 40000

structure Uint128 where
  high : Nat
  low : Nat
deriving DecidableEq, Repr

/-- The 128-bit value `high * 2^64 + low` represented by a `Uint128`. -/
def value (a : Uint128) : Nat := a.high * 2^64 + a.low

/-- Well-formedness: both limbs fit in 64 bits. -/
def WF (a : Uint128) : Prop := a.high < 2^64 ∧ a.low < 2^64

instance (a : Uint128) : Decidable (WF a) := by unfold WF; infer_instance

def BlockSize : Nat := 128

/-- Go: `var magicTable = [16]uint64{...}` (IOS 1.13.x table). -/
def magicTable : List Nat :=
  [0x95C05F4D1512959E, 0xE4F3C46EEF0DCF07,
   0x6238DC228F980AD2, 0x53F3E3BC49607092,
   0x4E7BE7069078D625, 0x1016D709D1AD25FC,
   0x044E89B8AC76E045, 0xE0B684DDA364BFA1,
   0x90C533B835E89E5F, 0x3DAF462A74FA874F,
   0xFEA54965DD3EF5A0, 0x287A5D7CCB31B970,
   0xAE681046800752F8, 0x121C2D6EAF66EC6E,
   0xEE8F8CA7E090FB20, 0xCE1AE25F48FE0A52]

def magicRound : Uint128 := ⟨0x78F32468CD48D6DE, 0x14C983660183C0AE⟩

def magicFinal : Uint128 := ⟨0xBDB31B10864F3F87, 0x5B7E9E828A9B8ABD⟩

/-- Go: `func (a Uint128) Add(b Uint128) Uint128`.
`sum := Uint128{a[0]+b[0], a[1]+b[1]}; if sum[1] < b[1] { sum[0]++ }`. -/
def Uint128.Add (a b : Uint128) : Uint128 :=
  let lo := (a.low + b.low) % 2^64
  let hi := (a.high + b.high) % 2^64
  if lo < b.low then ⟨(hi + 1) % 2^64, lo⟩ else ⟨hi, lo⟩

/-- Go: `func (a Uint128) And(b Uint128) Uint128`. -/
def Uint128.And (a b : Uint128) : Uint128 :=
  ⟨a.high &&& b.high, a.low &&& b.low⟩

/-- Go: `func (a Uint128) Cmp(b Uint128) int` — compare high limbs first,
fall back to low limbs when the high limbs are equal. -/
def Uint128.Cmp (a b : Uint128) : Int :=
  if a.high = b.high then
    if a.low < b.low then -1 else if a.low > b.low then 1 else 0
  else
    if a.high < b.high then -1 else if a.high > b.high then 1 else 0

/-- Go: `func mul64_128(a, b uint64) Uint128` — exact 64x64->128 product
via big.Int, returning `{prod >> 64, low 64 bits of prod}`. -/
def mul64_128 (a b : Nat) : Uint128 :=
  ⟨a * b / 2^64 % 2^64, a * b % 2^64⟩

/-- Little-endian 64-bit word assembled from 8 bytes of a list starting
at `off` (Go: `binary.LittleEndian.Uint64(l[off:])`), value part. -/
def leWord (l : List Nat) (off : Nat) : Nat :=
  l.getD off 0 + l.getD (off+1) 0 * 2^8 + l.getD (off+2) 0 * 2^16 +
  l.getD (off+3) 0 * 2^24 + l.getD (off+4) 0 * 2^32 + l.getD (off+5) 0 * 2^40 +
  l.getD (off+6) 0 * 2^48 + l.getD (off+7) 0 * 2^56

/-- Go: `binary.LittleEndian.Uint64(l[off:])`: panics (here: `none`)
unless at least 8 bytes are available. -/
def readU64LE (l : List Nat) (off : Nat) : Option Nat :=
  if off + 8 ≤ l.length then some (leWord l off) else none

/-- Go slice expression `l[i:j]`: valid when `i ≤ j ≤ len(l)`. -/
def slice (l : List Nat) (i j : Nat) : Option (List Nat) :=
  if i ≤ j ∧ j ≤ l.length then some ((l.drop i).take (j - i)) else none

/-- Go note in `hashBlock`: `0x3fffffffffffffffffffffffffffffff`,
built as `{^uint64(3 << 62), ^uint64(0)}`. -/
def u3fff : Uint128 := ⟨0x3FFFFFFFFFFFFFFF, 0xFFFFFFFFFFFFFFFF⟩

/-- Go note in `hash`: `0x7fffffffffffffffffffffffffffffff`,
built as `{^uint64(1 << 63), ^uint64(0)}`. -/
def u7fff : Uint128 := ⟨0x7FFFFFFFFFFFFFFF, 0xFFFFFFFFFFFFFFFF⟩

/-- Loop body of Go `hashBlock`: `fuel` is the number of remaining
iterations of `for offset := 0; offset < len(block); offset += 16`
(i.e. `ceil(len/16)` at the start).  Each iteration reads two
little-endian words, adds the next two magic-table entries (out-of-range
table index = Go panic = `none`) and accumulates `mul64_128 a b`. -/
def hashBlockLoop (block : List Nat) : Nat → Nat → Nat → Uint128 → Option Uint128
  | 0, _, _, h => some h
  | fuel+1, offset, magicIdx, h =>
    match readU64LE block offset, magicTable[magicIdx]?,
          readU64LE block (offset+8), magicTable[magicIdx+1]? with
    | some aw, some ta, some bw, some tb =>
        hashBlockLoop block fuel (offset+16) (magicIdx+2)
          (h.Add (mul64_128 ((aw + ta) % 2^64) ((bw + tb) % 2^64)))
    | _, _, _, _ => none

/-- Go: `func hashBlock(block []byte) Uint128`. -/
def hashBlock (block : List Nat) : Option Uint128 :=
  (hashBlockLoop block ((block.length + 15) / 16) 0 0 ⟨0, 0⟩).map
    (fun h => h.And u3fff)

/-- Go `a0 := a[1] << 32 >> 32` and friends: low 32-bit limb extraction. -/
def ma_lo32 (x : Nat) : Nat := ((x <<< 32) % 2^64) >>> 32

def ma_h0 (h : Uint128) : Nat := ma_lo32 h.low
def ma_h1 (h : Uint128) : Nat := h.low >>> 32
def ma_h2 (h : Uint128) : Nat := ma_lo32 h.high
def ma_h3 (h : Uint128) : Nat := h.high >>> 32

/-- Go `c0 := h0 * m0` (uint64, wraps). -/
def ma_c0 (h m : Uint128) : Nat := (ma_h0 h * ma_h0 m) % 2^64
/-- Go `c1 := (h0*m1) + (h1*m0)`. -/
def ma_c1 (h m : Uint128) : Nat := (ma_h0 h * ma_h1 m + ma_h1 h * ma_h0 m) % 2^64
/-- Go `c2 := (h0*m2) + (h1*m1) + (h2*m0)`. -/
def ma_c2 (h m : Uint128) : Nat :=
  (ma_h0 h * ma_h2 m + ma_h1 h * ma_h1 m + ma_h2 h * ma_h0 m) % 2^64
/-- Go `c3 := (h0*m3) + (h1*m2) + (h2*m1) + (h3*m0)`. -/
def ma_c3 (h m : Uint128) : Nat :=
  (ma_h0 h * ma_h3 m + ma_h1 h * ma_h2 m + ma_h2 h * ma_h1 m + ma_h3 h * ma_h0 m) % 2^64
/-- Go `c4 := (h1*m3) + (h2*m2) + (h3*m1)`. -/
def ma_c4 (h m : Uint128) : Nat :=
  (ma_h1 h * ma_h3 m + ma_h2 h * ma_h2 m + ma_h3 h * ma_h1 m) % 2^64
/-- Go `c5 := (h2*m3) + (h3*m2)`. -/
def ma_c5 (h m : Uint128) : Nat := (ma_h2 h * ma_h3 m + ma_h3 h * ma_h2 m) % 2^64
/-- Go `c6 := h3 * m3`. -/
def ma_c6 (h m : Uint128) : Nat := (ma_h3 h * ma_h3 m) % 2^64

/-- Go `r2 := c2 + (c6 << 1) + a23` (uint64, wraps). -/
def ma_r2 (h m a : Uint128) : Nat :=
  (ma_c2 h m + (ma_c6 h m <<< 1) % 2^64 + a.high) % 2^64
/-- Go `r3 := c3 + (r2 >> 32)`. -/
def ma_r3 (h m a : Uint128) : Nat := (ma_c3 h m + (ma_r2 h m a >>> 32)) % 2^64
/-- Go `r0 := c0 + (c4 << 1) + a0 + (r3 >> 31)`. -/
def ma_r0 (h m a : Uint128) : Nat :=
  (ma_c0 h m + (ma_c4 h m <<< 1) % 2^64 + ma_h0 a + (ma_r3 h m a >>> 31)) % 2^64
/-- Go `r1 := c1 + (c5 << 1) + a1 + (r0 >> 32)`. -/
def ma_r1 (h m a : Uint128) : Nat :=
  (ma_c1 h m + (ma_c5 h m <<< 1) % 2^64 + ma_h1 a + (ma_r0 h m a >>> 32)) % 2^64

/-- Go: `func hashMulAdd(h, m, a Uint128) Uint128`, result
`{((r3<<33>>1) | (r2<<32>>32)) + (r1>>32), (r1<<32) | (r0<<32>>32)}`. -/
def hashMulAdd (h m a : Uint128) : Uint128 :=
  ⟨((((ma_r3 h m a <<< 33) % 2^64) >>> 1 ||| ((ma_r2 h m a <<< 32) % 2^64) >>> 32)
      + (ma_r1 h m a >>> 32)) % 2^64,
   ((ma_r1 h m a <<< 32) % 2^64) ||| (((ma_r0 h m a <<< 32) % 2^64) >>> 32)⟩

/-- Loop of Go `hash`: `for offset := BlockSize; numBlocks > 1;
offset += BlockSize { hash = hashMulAdd(hash, magicRound,
hashBlock(input[offset : offset+BlockSize])); numBlocks-- }`. -/
def hashLoop (input : List Nat) : Nat → Nat → Uint128 → Option Uint128
  | _, 0, h => some h
  | _, 1, h => some h
  | offset, numBlocks+2, h =>
    match slice input offset (offset + BlockSize) with
    | some blk =>
      match hashBlock blk with
      | some hb =>
          hashLoop input (offset + BlockSize) (numBlocks+1) (hashMulAdd h magicRound hb)
      | none => none
    | none => none

/-- Go: `tail := make([]byte, 16*((tailLen+15)/16));
copy(tail, input[len(input)-tailLen:])`. -/
def padTail (input : List Nat) : List Nat :=
  let tailLen := input.length % BlockSize
  input.drop (input.length - tailLen) ++
    List.replicate (16 * ((tailLen + 15) / 16) - tailLen) 0

/-- The pre-finalization part of Go `hash` (lines 30-57): block split,
absorption of block 0 or the padded tail, round-constant addition, the
block-folding loop, and the conditional tail fold. -/
def hashAccum (input : List Nat) : Option Uint128 :=
  let numBlocks := input.length / BlockSize
  let tailLen := input.length % BlockSize
  let tail := padTail input
  match (if 0 < numBlocks then slice input 0 BlockSize >>= hashBlock else hashBlock tail) with
  | none => none
  | some h0 =>
    let h1 := h0.Add magicRound
    if 0 < numBlocks then
      match hashLoop input BlockSize numBlocks h1 with
      | none => none
      | some h2 =>
        if 0 < tailLen then
          (hashBlock tail).map (fun hb => hashMulAdd h2 magicRound hb)
        else some h2
    else some h1

/-- Finalizer step (line 62): `hash = hash.Add(Uint128{uint64(tailLen*8), 0})`. -/
def finalStep1 (st : Uint128) (tailLen : Nat) : Uint128 :=
  st.Add ⟨(tailLen * 8) % 2^64, 0⟩

/-- Finalizer step (lines 63-65): `if hash.Cmp(u7fff) >= 0 { hash = hash.Add({0,1}) }`. -/
def finalStep2 (h : Uint128) : Uint128 :=
  if 0 ≤ h.Cmp u7fff then h.Add ⟨0, 1⟩ else h

/-- Finalizer state after lines 62-66: bit-length add, conditional +1,
mask to 127 bits. -/
def finalMask (st : Uint128) (tailLen : Nat) : Uint128 :=
  (finalStep2 (finalStep1 st tailLen)).And u7fff

/-- Lines 68-69: `X := hash[0] + (hash[1] >> 32);
X = ((X + (X >> 32) + 1) >> 32) + hash[0]`. -/
def finalX (st : Uint128) (tailLen : Nat) : Nat :=
  let h := finalMask st tailLen
  let X0 := (h.high + (h.low >>> 32)) % 2^64
  ((((X0 + (X0 >>> 32) + 1) % 2^64) >>> 32) + h.high) % 2^64

/-- Line 70: `Y := (X << 32) + hash[1]`. -/
def finalY (st : Uint128) (tailLen : Nat) : Nat :=
  (((finalX st tailLen <<< 32) % 2^64) + (finalMask st tailLen).low) % 2^64

/-- Lines 72-80 pattern: `A := X + c; if A < X { A += 0x101 }`. -/
def addCorrect (x y : Nat) : Nat :=
  let s := (x + y) % 2^64
  if s < x then (s + 0x101) % 2^64 else s

def finalA (st : Uint128) (tailLen : Nat) : Nat :=
  addCorrect (finalX st tailLen) magicFinal.high

def finalB (st : Uint128) (tailLen : Nat) : Nat :=
  addCorrect (finalY st tailLen) magicFinal.low

/-- Lines 83-84 pattern: `hash = mul64_128(hash[0], 0x101).Add(Uint128{0, hash[1]})`. -/
def redStep (h : Uint128) : Uint128 :=
  (mul64_128 h.high 0x101).Add ⟨0, h.low⟩

/-- Lines 82-94: multiply the two corrected lanes, reduce twice, and
canonicalize the low limb below `2^64 - 257`. -/
def finalizeTail (A B : Nat) : Nat :=
  let hh := redStep (redStep (mul64_128 A B))
  let r0 := hh.low
  let r1 := if hh.high ≠ 0 then (r0 + 0x101) % 2^64 else r0
  if 0xFFFFFFFFFFFFFEFE < r1 then (r1 + 0x101) % 2^64 else r1

/-- Finalizer, Go lines 59-94. -/
def finalize (st : Uint128) (tailLen : Nat) : Nat :=
  finalizeTail (finalA st tailLen) (finalB st tailLen)

/-- Go: `func hash(input []byte) uint64`. -/
def hash (input : List Nat) : Option Nat :=
  (hashAccum input).map (fun st => finalize st (input.length % BlockSize))

/-! ## Claim-side (specification) definitions

These definitions follow the wording of the specification claims and are
compared against the code-side definitions above. -/

/-- One lane of the absorber as the spec describes it: read two
little-endian words of the 16-byte lane at `16*i`, add the magic-table
entries `2*i` and `2*i+1`, and accumulate `mul64to128 a b` with 128-bit
wrapping addition. -/
def laneStep (block : List Nat) (s : Uint128) (i : Nat) : Uint128 :=
  s.Add (mul64_128 ((leWord block (16*i) + magicTable.getD (2*i) 0) % 2^64)
                   ((leWord block (16*i + 8) + magicTable.getD (2*i+1) 0) % 2^64))

/-- The absorber as the spec describes it: fold the lanes in order over
the zero accumulator and mask with `0x3fffffffffffffffffffffffffffffff`. -/
def hashBlockSpec (block : List Nat) : Uint128 :=
  ((List.range (block.length / 16)).foldl (laneStep block) ⟨0, 0⟩).And u3fff

/-- The orchestrator staged as the spec describes it: absorb block 0 when
`numBlocks > 0` and the zero-padded tail otherwise, add the round
constant, fold blocks `1..numBlocks-1` in order, and fold the padded
tail only when both `numBlocks > 0` and `tailLen > 0`. -/
def hashSpecStaged (input : List Nat) : Option Uint128 :=
  let numBlocks := input.length / BlockSize
  let tailLen := input.length % BlockSize
  let paddedTail := input.drop (input.length - tailLen) ++
    List.replicate (16 * ((tailLen + 15) / 16) - tailLen) 0
  (if 0 < numBlocks then slice input 0 BlockSize >>= hashBlock
   else hashBlock paddedTail) >>= fun h0 =>
  ((List.range' 1 (numBlocks - 1)).foldlM
    (fun acc i =>
      (slice input (BlockSize * i) (BlockSize * i + BlockSize) >>= hashBlock).map
        (fun hb => hashMulAdd acc magicRound hb))
    (h0.Add magicRound)) >>= fun h2 =>
  if 0 < numBlocks ∧ 0 < tailLen then
    (hashBlock paddedTail).map (fun hb => hashMulAdd h2 magicRound hb)
  else some h2

/-- 32-bit limb `i` of a 128-bit value. -/
def limb (x i : Nat) : Nat := x / 2^(32*i) % 2^32

def sp_c0 (hv mv : Nat) : Nat := (limb hv 0 * limb mv 0) % 2^64
def sp_c1 (hv mv : Nat) : Nat :=
  (limb hv 0 * limb mv 1 + limb hv 1 * limb mv 0) % 2^64
def sp_c2 (hv mv : Nat) : Nat :=
  (limb hv 0 * limb mv 2 + limb hv 1 * limb mv 1 + limb hv 2 * limb mv 0) % 2^64
def sp_c3 (hv mv : Nat) : Nat :=
  (limb hv 0 * limb mv 3 + limb hv 1 * limb mv 2 + limb hv 2 * limb mv 1 +
    limb hv 3 * limb mv 0) % 2^64
def sp_c4 (hv mv : Nat) : Nat :=
  (limb hv 1 * limb mv 3 + limb hv 2 * limb mv 2 + limb hv 3 * limb mv 1) % 2^64
def sp_c5 (hv mv : Nat) : Nat :=
  (limb hv 2 * limb mv 3 + limb hv 3 * limb mv 2) % 2^64
def sp_c6 (hv mv : Nat) : Nat := (limb hv 3 * limb mv 3) % 2^64

/-- Spec carry chain: `r2 = c2 + (c6<<1) + a_high64` modulo `2^64`. -/
def sp_r2 (hv mv av : Nat) : Nat :=
  (sp_c2 hv mv + 2 * sp_c6 hv mv + av / 2^64 % 2^64) % 2^64
/-- Spec carry chain: `r3 = c3 + (r2>>32)` modulo `2^64`. -/
def sp_r3 (hv mv av : Nat) : Nat :=
  (sp_c3 hv mv + sp_r2 hv mv av / 2^32) % 2^64
/-- Spec carry chain: `r0 = c0 + (c4<<1) + a_low32 + (r3>>31)` modulo `2^64`. -/
def sp_r0 (hv mv av : Nat) : Nat :=
  (sp_c0 hv mv + 2 * sp_c4 hv mv + av % 2^32 + sp_r3 hv mv av / 2^31) % 2^64
/-- Spec carry chain: `r1 = c1 + (c5<<1) + a_bits32to63 + (r0>>32)` modulo `2^64`. -/
def sp_r1 (hv mv av : Nat) : Nat :=
  (sp_c1 hv mv + 2 * sp_c5 hv mv + av / 2^32 % 2^32 + sp_r0 hv mv av / 2^32) % 2^64

/-- The combiner as the spec describes it, on the 32-bit limbs of the
VALUES of the operands, with arithmetic in place of the bit tricks:
high limb `((r3<<33>>1) | (r2<<32>>32)) + (r1>>32)`, low limb
`(r1<<32) | (r0<<32>>32)`. -/
def hashMulAddSpec (h m a : Uint128) : Uint128 :=
  ⟨((sp_r3 (value h) (value m) (value a) % 2^31) * 2^32 +
      sp_r2 (value h) (value m) (value a) % 2^32 +
      sp_r1 (value h) (value m) (value a) / 2^32) % 2^64,
   (sp_r1 (value h) (value m) (value a) % 2^32) * 2^32 +
      sp_r0 (value h) (value m) (value a) % 2^32⟩

/-! Exact (unwrapped) counterparts of the `hashMulAdd` intermediates,
used to state when the 64-bit carry chain does not overflow. -/

def ma_c0x (h m : Uint128) : Nat := ma_h0 h * ma_h0 m
def ma_c1x (h m : Uint128) : Nat := ma_h0 h * ma_h1 m + ma_h1 h * ma_h0 m
def ma_c2x (h m : Uint128) : Nat :=
  ma_h0 h * ma_h2 m + ma_h1 h * ma_h1 m + ma_h2 h * ma_h0 m
def ma_c3x (h m : Uint128) : Nat :=
  ma_h0 h * ma_h3 m + ma_h1 h * ma_h2 m + ma_h2 h * ma_h1 m + ma_h3 h * ma_h0 m
def ma_c4x (h m : Uint128) : Nat :=
  ma_h1 h * ma_h3 m + ma_h2 h * ma_h2 m + ma_h3 h * ma_h1 m
def ma_c5x (h m : Uint128) : Nat := ma_h2 h * ma_h3 m + ma_h3 h * ma_h2 m
def ma_c6x (h m : Uint128) : Nat := ma_h3 h * ma_h3 m

/-- Exact value of `r2 = c2 + 2*c6 + a.high` with no 64-bit wrap. -/
def ma_R2x (h m a : Uint128) : Nat := ma_c2x h m + 2 * ma_c6x h m + a.high
/-- Exact value of `r3 = c3 + (r2 >> 32)` with no 64-bit wrap. -/
def ma_R3x (h m a : Uint128) : Nat := ma_c3x h m + ma_R2x h m a / 2^32
/-- Exact value of `r0 = c0 + 2*c4 + a0 + (r3 >> 31)` with no 64-bit wrap. -/
def ma_R0x (h m a : Uint128) : Nat :=
  ma_c0x h m + 2 * ma_c4x h m + ma_h0 a + ma_R3x h m a / 2^31
/-- Exact value of `r1 = c1 + 2*c5 + a1 + (r0 >> 32)` with no 64-bit wrap. -/
def ma_R1x (h m a : Uint128) : Nat :=
  ma_c1x h m + 2 * ma_c5x h m + ma_h1 a + ma_R0x h m a / 2^32

/-! ## Basic lemmas about the wide-integer layer -/

theorem add_low (a b : Uint128) : (a.Add b).low = (a.low + b.low) % 2^64 := by
  simp only [Uint128.Add]
  split <;> rfl

theorem add_low_lt (a b : Uint128) : (a.Add b).low < 2^64 := by
  rw [add_low]; omega

theorem add_high_lt (a b : Uint128) : (a.Add b).high < 2^64 := by
  simp only [Uint128.Add]
  split <;> simp <;> omega

theorem add_value (a b : Uint128) (ha : a.high < 2^64) (hal : a.low < 2^64)
    (hb : b.high < 2^64) (hbl : b.low < 2^64) :
    value (a.Add b) = (value a + value b) % 2^128 := by
  simp only [Uint128.Add, value]
  split <;> simp <;> omega

theorem mul64_128_low_lt (a b : Nat) : (mul64_128 a b).low < 2^64 := by
  unfold mul64_128; simp; omega

theorem mul64_128_high_lt (a b : Nat) : (mul64_128 a b).high < 2^64 := by
  unfold mul64_128; simp; omega

theorem mul64_128_value (a b : Nat) (ha : a < 2^64) (hb : b < 2^64) :
    value (mul64_128 a b) = a * b := by
  unfold mul64_128 value
  have hab : a * b < 2^128 := by
    calc a * b ≤ (2^64 - 1) * (2^64 - 1) :=
          Nat.mul_le_mul (by omega) (by omega)
      _ < 2^128 := by norm_num
  simp
  omega

/-! ## C7: 128-bit addition wraps modulo 2^128 and the low-limb
comparison detects the carry exactly -/

/-- C7: for all 128-bit operands, `Add` returns the 128-bit sum modulo
`2^128`, and the carry test `sum.low < b.low` holds exactly when the
low-limb addition wrapped. -/
theorem add_wraparound_correct (a b : Uint128) (ha : WF a) (hb : WF b) :
    value (a.Add b) = (value a + value b) % 2^128 ∧
    ((a.low + b.low) % 2^64 < b.low ↔ 2^64 ≤ a.low + b.low) := by
  obtain ⟨ha1, ha2⟩ := ha
  obtain ⟨hb1, hb2⟩ := hb
  exact ⟨add_value a b ha1 ha2 hb1 hb2, by omega⟩

theorem add_wraparound_correct_witness :
    WF ⟨1, 18446744073709551615⟩ ∧ WF ⟨2, 5⟩ ∧
    (value (Uint128.Add ⟨1, 18446744073709551615⟩ ⟨2, 5⟩) =
        (value ⟨1, 18446744073709551615⟩ + value ⟨2, 5⟩) % 2^128 ∧
      ((18446744073709551615 + 5) % 2^64 < 5 ↔ 2^64 ≤ 18446744073709551615 + 5)) := by
  refine ⟨by decide, by decide, ?_⟩
  have h := add_wraparound_correct ⟨1, 18446744073709551615⟩ ⟨2, 5⟩
    (by decide) (by decide)
  exact h

/-! ## C1: the finalizer's bit-length step

The Go code adds `Uint128{uint64(tailLen*8), 0}`, i.e. it adds
`tailLen*8` to the HIGH limb (index 0 of `[2]uint64` is the high limb),
not to the low limb as the claim states. -/

/-- C1 counterexample: for the 16-byte all-zero input (tail length 16)
the bit-length step changes the accumulator's value by `16*8 * 2^64`,
not by `16*8`: the claimed low-limb addition does not match the code. -/
theorem tail_bits_low_limb_ce :
    hashAccum (List.replicate 16 0) =
      some ⟨9142608286807165148, 10175074184980765184⟩ ∧
    (List.replicate 16 (0 : Nat)).length % BlockSize = 16 ∧
    value (finalStep1 ⟨9142608286807165148, 10175074184980765184⟩ 16) ≠
      (value ⟨9142608286807165148, 10175074184980765184⟩ + 16 * 8) % 2^128 := by
  refine ⟨by decide, by decide, by decide⟩

/-- C1 amended: the bit-length step adds `tailLen*8` into the HIGH limb:
the accumulator's 128-bit value increases by `tailLen*8*2^64` modulo
`2^128`, and the low limb is unchanged. -/
theorem tail_bits_high_limb (st : Uint128) (tl : Nat) (h : WF st)
    (htl : tl ≤ 127) :
    value (finalStep1 st tl) = (value st + tl * 8 * 2^64) % 2^128 ∧
    (finalStep1 st tl).low = st.low := by
  obtain ⟨h1, h2⟩ := h
  simp only [finalStep1, Uint128.Add, value]
  split <;> simp_all <;> omega

theorem tail_bits_high_limb_witness :
    WF ⟨3, 5⟩ ∧ (16 : Nat) ≤ 127 ∧
    (value (finalStep1 ⟨3, 5⟩ 16) = (value ⟨3, 5⟩ + 16 * 8 * 2^64) % 2^128 ∧
      (finalStep1 ⟨3, 5⟩ 16).low = (5 : Nat)) := by
  exact ⟨by decide, by decide, tail_bits_high_limb ⟨3, 5⟩ 16 (by decide) (by decide)⟩

/-! ## C8: every absorbed block contribution is below 2^126 -/

/-- C8: any value `hashBlock` returns has been masked with
`0x3fffffffffffffffffffffffffffffff` and therefore lies in `[0, 2^126)`. -/
theorem hashBlock_lt_two_pow_126 (block : List Nat) (v : Uint128)
    (h : hashBlock block = some v) : value v < 2^126 := by
  unfold hashBlock at h
  cases hl : hashBlockLoop block ((block.length + 15) / 16) 0 0 ⟨0, 0⟩ with
  | none => rw [hl] at h; simp at h
  | some w =>
    rw [hl] at h
    simp only [Option.map_some'] at h
    obtain rfl : w.And u3fff = v := by injection h
    have hh : w.high &&& 0x3FFFFFFFFFFFFFFF ≤ 0x3FFFFFFFFFFFFFFF :=
      Nat.and_le_right
    have hlo : w.low &&& 0xFFFFFFFFFFFFFFFF ≤ 0xFFFFFFFFFFFFFFFF :=
      Nat.and_le_right
    unfold value Uint128.And u3fff
    simp only
    omega

theorem hashBlock_lt_two_pow_126_witness :
    hashBlock [] = some ⟨0, 0⟩ ∧ value ⟨0, 0⟩ < 2^126 :=
  ⟨by decide, hashBlock_lt_two_pow_126 [] ⟨0, 0⟩ (by decide)⟩

/-! ## C6: the digest is canonical below the working modulus 2^64 - 257 -/

theorem finalizeTail_le (A B : Nat) :
    finalizeTail A B ≤ 0xFFFFFFFFFFFFFEFE := by
  have h1 : (redStep (redStep (mul64_128 A B))).low < 2^64 := by
    unfold redStep; exact add_low_lt _ _
  simp only [finalizeTail]
  split <;> split <;> omega

/-- C6: every digest `hash` returns lies at or below
`0xFFFFFFFFFFFFFEFE`, i.e. strictly below the working modulus
`2^64 - 257`. -/
theorem hash_canonical_below_modulus (input : List Nat) (r : Nat)
    (h : hash input = some r) : r ≤ 0xFFFFFFFFFFFFFEFE := by
  unfold hash at h
  cases ha : hashAccum input with
  | none => rw [ha] at h; simp at h
  | some st =>
    rw [ha] at h
    simp only [Option.map_some'] at h
    obtain rfl : finalize st (input.length % BlockSize) = r := by injection h
    unfold finalize
    exact finalizeTail_le _ _

theorem hash_canonical_below_modulus_witness :
    hash [] = some 5268938652693698166 ∧
    (5268938652693698166 : Nat) ≤ 0xFFFFFFFFFFFFFEFE :=
  ⟨by decide, hash_canonical_below_modulus [] 5268938652693698166 (by decide)⟩

/-! ## C4: the absorber equals the lane fold (for in-range block sizes) -/

theorem magicTable_lookup (k : Nat) (hk : k < 16) :
    magicTable[k]? = some (magicTable.getD k 0) := by
  have hlen : magicTable.length = 16 := by rfl
  rw [List.getElem?_eq_getElem (by omega), List.getD_eq_getElem?_getD,
    List.getElem?_eq_getElem (by omega)]
  rfl

theorem hashBlockLoop_eq (block : List Nat) :
    ∀ n i h, block.length = 16 * (i + n) → i + n ≤ 8 →
      hashBlockLoop block n (16*i) (2*i) h =
        some ((List.range' i n).foldl (laneStep block) h) := by
  intro n
  induction n with
  | zero => intro i h _ _; rfl
  | succ n ih =>
    intro i h hlen hle
    have hr1 : readU64LE block (16*i) = some (leWord block (16*i)) := by
      unfold readU64LE; rw [if_pos (by omega)]
    have hr2 : readU64LE block (16*i+8) = some (leWord block (16*i+8)) := by
      unfold readU64LE; rw [if_pos (by omega)]
    have ht1 : magicTable[2*i]? = some (magicTable.getD (2*i) 0) :=
      magicTable_lookup _ (by omega)
    have ht2 : magicTable[2*i+1]? = some (magicTable.getD (2*i+1) 0) :=
      magicTable_lookup _ (by omega)
    rw [hashBlockLoop, hr1, hr2, ht1, ht2]
    simp only
    have e1 : 16*i + 16 = 16*(i+1) := by omega
    have e2 : 2*i + 2 = 2*(i+1) := by omega
    rw [e1, e2, ih (i+1) _ (by omega) (by omega), List.range'_succ,
      List.foldl_cons]
    rfl

theorem hashBlock_eq_spec_aux (block : List Nat) (h16 : block.length % 16 = 0)
    (h128 : block.length ≤ 128) :
    hashBlock block = some (hashBlockSpec block) := by
  unfold hashBlock hashBlockSpec
  have hn : (block.length + 15) / 16 = block.length / 16 := by omega
  have hfold := hashBlockLoop_eq block (block.length / 16) 0 ⟨0, 0⟩
    (by omega) (by omega)
  simp only [Nat.mul_zero] at hfold
  rw [hn, hfold, List.range_eq_range']
  rfl

/-- C4 counterexample: a 144-byte block has length a multiple of 16, but
`hashBlock` hits magic-table index 16 (a Go panic, modelled as `none`)
instead of returning the described lane-fold sum. -/
theorem hashBlock_overlong_ce :
    (List.replicate 144 (0 : Nat)).length % 16 = 0 ∧
    hashBlock (List.replicate 144 0) ≠
      some (hashBlockSpec (List.replicate 144 0)) :=
  ⟨by decide, by decide⟩

/-- C4 amended: for every block whose length is a multiple of 16 AND at
most 128 bytes, `hashBlock` reads the lanes as two little-endian words
plus consecutive magic-table entries, accumulates `mul64to128` products
with 128-bit wrapping addition, and returns the sum masked to 126 bits;
a zero-length block yields the zero accumulator. -/
theorem hashBlock_eq_lane_fold (block : List Nat) (h16 : block.length % 16 = 0)
    (h128 : block.length ≤ 128) :
    hashBlock block = some (hashBlockSpec block) :=
  hashBlock_eq_spec_aux block h16 h128

theorem hashBlock_eq_lane_fold_witness :
    (List.replicate 32 (7 : Nat)).length % 16 = 0 ∧
    (List.replicate 32 (7 : Nat)).length ≤ 128 ∧
    hashBlock (List.replicate 32 7) = some (hashBlockSpec (List.replicate 32 7)) :=
  ⟨by decide, by decide, hashBlock_eq_lane_fold _ (by decide) (by decide)⟩

/-! ## C9: totality of `hash` -/

theorem padTail_length (input : List Nat) :
    (padTail input).length = 16 * ((input.length % BlockSize + 15) / 16) := by
  unfold padTail BlockSize
  simp only [List.length_append, List.length_drop, List.length_replicate]
  omega

theorem hashBlock_padTail_isSome (input : List Nat) :
    (hashBlock (padTail input)).isSome := by
  have h := padTail_length input
  rw [hashBlock_eq_spec_aux (padTail input) (by omega)
    (by unfold BlockSize at h; omega)]
  rfl

theorem hashLoop_isSome (input : List Nat) :
    ∀ k offset h, offset + 128 * (k - 1) ≤ input.length →
      (hashLoop input offset k h).isSome := by
  intro k
  induction k with
  | zero => intro offset h _; rfl
  | succ k ih =>
    intro offset h hle
    cases k with
    | zero => rfl
    | succ k =>
      have hB : BlockSize = 128 := rfl
      have hsl : slice input offset (offset + BlockSize) =
          some ((input.drop offset).take BlockSize) := by
        unfold slice
        rw [if_pos ⟨by omega, by rw [hB]; omega⟩]
        have he : offset + BlockSize - offset = BlockSize := by omega
        rw [he]
      have hbl : ((input.drop offset).take BlockSize).length = 128 := by
        simp only [List.length_take, List.length_drop, hB]
        omega
      have hhb := hashBlock_eq_spec_aux ((input.drop offset).take BlockSize)
        (by rw [hbl]) (by rw [hbl])
      rw [hashLoop, hsl]
      simp only [hhb]
      apply ih
      rw [hB]
      omega

theorem hashAccum_isSome (input : List Nat) : (hashAccum input).isSome := by
  have hB : BlockSize = 128 := rfl
  unfold hashAccum
  by_cases hnb : 0 < input.length / BlockSize
  · have hlen : BlockSize ≤ input.length := by
      rw [hB] at hnb ⊢
      omega
    have hsl : slice input 0 BlockSize = some ((input.drop 0).take BlockSize) := by
      unfold slice
      rw [if_pos ⟨by omega, by omega⟩, Nat.sub_zero]
    have hbl : ((input.drop 0).take BlockSize).length = 128 := by
      simp only [List.length_take, List.length_drop, hB]
      rw [hB] at hlen
      omega
    have hhb := hashBlock_eq_spec_aux ((input.drop 0).take BlockSize)
      (by rw [hbl]) (by rw [hbl])
    simp only [if_pos hnb, hsl, Option.bind_eq_bind, Option.some_bind, hhb]
    have hloop := hashLoop_isSome input (input.length / BlockSize) BlockSize
      ((hashBlockSpec ((input.drop 0).take BlockSize)).Add magicRound)
      (by rw [hB] at hnb ⊢; omega)
    cases hld : hashLoop input BlockSize (input.length / BlockSize)
        ((hashBlockSpec ((input.drop 0).take BlockSize)).Add magicRound) with
    | none => rw [hld] at hloop; exact absurd hloop (by simp)
    | some h2 =>
      by_cases htl : 0 < input.length % BlockSize
      · simp only [if_pos htl]
        have hts := hashBlock_padTail_isSome input
        cases hpt : hashBlock (padTail input) with
        | none => rw [hpt] at hts; exact absurd hts (by simp)
        | some hb => rfl
      · simp only [if_neg htl]
        rfl
  · have hts := hashBlock_padTail_isSome input
    simp only [if_neg hnb]
    cases hpt : hashBlock (padTail input) with
    | none => rw [hpt] at hts; exact absurd hts (by simp)
    | some h0 =>
      simp only [if_neg hnb]
      rfl

/-- C9: `hash` is total — every slice access and table lookup stays in
bounds for every input length, so the `Option`-returning embedding never
hits the out-of-range branch. -/
theorem hash_total (input : List Nat) : (hash input).isSome := by
  unfold hash
  have hs := hashAccum_isSome input
  cases ha : hashAccum input with
  | none => rw [ha] at hs; exact absurd hs (by simp)
  | some st => rfl

/-! ## C3: the orchestrator equals the staged description -/

theorem hashLoop_eq_foldlM (input : List Nat) :
    ∀ k i h, hashLoop input (BlockSize * i) k h =
      (List.range' i (k - 1)).foldlM
        (fun acc j =>
          (slice input (BlockSize * j) (BlockSize * j + BlockSize) >>= hashBlock).map
            (fun hb => hashMulAdd acc magicRound hb)) h := by
  intro k
  induction k with
  | zero => intro i h; rfl
  | succ k ih =>
    intro i h
    cases k with
    | zero => rfl
    | succ k =>
      rw [hashLoop]
      have hr : k + 1 + 1 - 1 = k + 1 := by omega
      rw [hr, List.range'_succ, List.foldlM_cons]
      cases hsl : slice input (BlockSize * i) (BlockSize * i + BlockSize) with
      | none => rfl
      | some blk =>
        cases hhb : hashBlock blk with
        | none =>
          simp only [hhb, Option.bind_eq_bind, Option.some_bind, Option.map_none']
          rfl
        | some hb =>
          simp only [hhb, Option.bind_eq_bind, Option.some_bind, Option.map_some']
          have he : BlockSize * i + BlockSize = BlockSize * (i + 1) := by ring
          rw [he]
          have hl := ih (i + 1) (hashMulAdd h magicRound hb)
          have hk : k + 1 - 1 = k := by omega
          rw [hk] at hl
          exact hl

/-- C3: `hash`'s accumulation phase proceeds exactly as the staged
description: absorb block 0 when `numBlocks > 0`, otherwise absorb the
zero-padded tail; add the round constant; fold blocks `1..numBlocks-1`
in order; and fold the padded tail only when both `numBlocks > 0` and
`tailLen > 0` (in particular, for a positive multiple of 128 the empty
padded tail is never absorbed or combined). -/
theorem hash_staged_structure (input : List Nat) :
    hashAccum input = hashSpecStaged input := by
  unfold hashAccum hashSpecStaged padTail
  simp only
  cases ho : (if 0 < input.length / BlockSize
      then slice input 0 BlockSize >>= hashBlock
      else hashBlock (input.drop (input.length - input.length % BlockSize) ++
        List.replicate
          (16 * ((input.length % BlockSize + 15) / 16) - input.length % BlockSize)
          0)) with
  | none => rfl
  | some h0 =>
    simp only [Option.bind_eq_bind, Option.some_bind]
    by_cases hnb : 0 < input.length / BlockSize
    · simp only [if_pos hnb]
      have hl := hashLoop_eq_foldlM input (input.length / BlockSize) 1
        (h0.Add magicRound)
      rw [Nat.mul_one] at hl
      rw [hl]
      cases hfold : (List.range' 1 (input.length / BlockSize - 1)).foldlM
          (fun acc j =>
            (slice input (BlockSize * j) (BlockSize * j + BlockSize) >>= hashBlock).map
              (fun hb => hashMulAdd acc magicRound hb)) (h0.Add magicRound) with
      | none => rfl
      | some h2 =>
        simp only [Option.bind_eq_bind, Option.some_bind]
        by_cases htl : 0 < input.length % BlockSize
        · rw [if_pos htl, if_pos ⟨hnb, htl⟩]
        · rw [if_neg htl, if_neg (by tauto)]
    · simp only [if_neg hnb]
      have hz : input.length / BlockSize - 1 = 0 := by omega
      rw [hz]
      simp only [List.range'_zero, List.foldlM_nil, Option.bind_eq_bind,
        Option.pure_def, Option.some_bind]
      rw [if_neg (by tauto)]

/-! ## C5: the combiner equals the spec's 32-bit-limb carry chain -/

theorem hashMulAdd_eq_spec_aux (h m a : Uint128) (hwh : WF h) (hwm : WF m)
    (hwa : WF a) : hashMulAdd h m a = hashMulAddSpec h m a := by
  obtain ⟨hh1, hh2⟩ := hwh
  obtain ⟨hm1, hm2⟩ := hwm
  obtain ⟨ha1, ha2⟩ := hwa
  have eh0 : ma_h0 h = limb (value h) 0 := by
    unfold ma_h0 ma_lo32 limb value
    rw [Nat.shiftLeft_eq, Nat.shiftRight_eq_div_pow]
    norm_num
    omega
  have eh1 : ma_h1 h = limb (value h) 1 := by
    unfold ma_h1 limb value
    rw [Nat.shiftRight_eq_div_pow]
    norm_num
    omega
  have eh2 : ma_h2 h = limb (value h) 2 := by
    unfold ma_h2 ma_lo32 limb value
    rw [Nat.shiftLeft_eq, Nat.shiftRight_eq_div_pow]
    norm_num
    omega
  have eh3 : ma_h3 h = limb (value h) 3 := by
    unfold ma_h3 limb value
    rw [Nat.shiftRight_eq_div_pow]
    norm_num
    omega
  have em0 : ma_h0 m = limb (value m) 0 := by
    unfold ma_h0 ma_lo32 limb value
    rw [Nat.shiftLeft_eq, Nat.shiftRight_eq_div_pow]
    norm_num
    omega
  have em1 : ma_h1 m = limb (value m) 1 := by
    unfold ma_h1 limb value
    rw [Nat.shiftRight_eq_div_pow]
    norm_num
    omega
  have em2 : ma_h2 m = limb (value m) 2 := by
    unfold ma_h2 ma_lo32 limb value
    rw [Nat.shiftLeft_eq, Nat.shiftRight_eq_div_pow]
    norm_num
    omega
  have em3 : ma_h3 m = limb (value m) 3 := by
    unfold ma_h3 limb value
    rw [Nat.shiftRight_eq_div_pow]
    norm_num
    omega
  have ec0 : ma_c0 h m = sp_c0 (value h) (value m) := by
    unfold ma_c0 sp_c0; rw [eh0, em0]
  have ec1 : ma_c1 h m = sp_c1 (value h) (value m) := by
    unfold ma_c1 sp_c1; rw [eh0, eh1, em0, em1]
  have ec2 : ma_c2 h m = sp_c2 (value h) (value m) := by
    unfold ma_c2 sp_c2; rw [eh0, eh1, eh2, em0, em1, em2]
  have ec3 : ma_c3 h m = sp_c3 (value h) (value m) := by
    unfold ma_c3 sp_c3; rw [eh0, eh1, eh2, eh3, em0, em1, em2, em3]
  have ec4 : ma_c4 h m = sp_c4 (value h) (value m) := by
    unfold ma_c4 sp_c4; rw [eh1, eh2, eh3, em1, em2, em3]
  have ec5 : ma_c5 h m = sp_c5 (value h) (value m) := by
    unfold ma_c5 sp_c5; rw [eh2, eh3, em2, em3]
  have ec6 : ma_c6 h m = sp_c6 (value h) (value m) := by
    unfold ma_c6 sp_c6; rw [eh3, em3]
  have ea23 : value a / 2^64 % 2^64 = a.high := by
    unfold value; omega
  have ea0 : ma_h0 a = value a % 2^32 := by
    unfold ma_h0 ma_lo32 value
    rw [Nat.shiftLeft_eq, Nat.shiftRight_eq_div_pow]
    omega
  have ea1 : ma_h1 a = value a / 2^32 % 2^32 := by
    unfold ma_h1 value
    rw [Nat.shiftRight_eq_div_pow]
    omega
  have er2 : ma_r2 h m a = sp_r2 (value h) (value m) (value a) := by
    unfold ma_r2 sp_r2
    rw [ec2, ec6, ea23.symm, Nat.shiftLeft_eq]
    omega
  have er3 : ma_r3 h m a = sp_r3 (value h) (value m) (value a) := by
    unfold ma_r3 sp_r3
    rw [ec3, er2, Nat.shiftRight_eq_div_pow]
  have er0 : ma_r0 h m a = sp_r0 (value h) (value m) (value a) := by
    unfold ma_r0 sp_r0
    rw [ec0, ec4, er3, ea0, Nat.shiftLeft_eq, Nat.shiftRight_eq_div_pow]
    omega
  have er1 : ma_r1 h m a = sp_r1 (value h) (value m) (value a) := by
    unfold ma_r1 sp_r1
    rw [ec1, ec5, er0, ea1, Nat.shiftLeft_eq, Nat.shiftRight_eq_div_pow]
    omega
  unfold hashMulAdd hashMulAddSpec
  rw [er0, er1, er2, er3]
  have e1 : ((sp_r3 (value h) (value m) (value a) <<< 33) % 2^64) >>> 1 =
      (sp_r3 (value h) (value m) (value a) % 2^31) * 2^32 := by
    rw [Nat.shiftLeft_eq, Nat.shiftRight_eq_div_pow]
    omega
  have e2 : ((sp_r2 (value h) (value m) (value a) <<< 32) % 2^64) >>> 32 =
      sp_r2 (value h) (value m) (value a) % 2^32 := by
    rw [Nat.shiftLeft_eq, Nat.shiftRight_eq_div_pow]
    omega
  have e4 : (sp_r1 (value h) (value m) (value a) <<< 32) % 2^64 =
      (sp_r1 (value h) (value m) (value a) % 2^32) * 2^32 := by
    rw [Nat.shiftLeft_eq]
    omega
  have e5 : ((sp_r0 (value h) (value m) (value a) <<< 32) % 2^64) >>> 32 =
      sp_r0 (value h) (value m) (value a) % 2^32 := by
    rw [Nat.shiftLeft_eq, Nat.shiftRight_eq_div_pow]
    omega
  rw [e1, e2, e4, e5, Nat.shiftRight_eq_div_pow]
  have e3 : (sp_r3 (value h) (value m) (value a) % 2^31) * 2^32 |||
        sp_r2 (value h) (value m) (value a) % 2^32 =
      (sp_r3 (value h) (value m) (value a) % 2^31) * 2^32 +
        sp_r2 (value h) (value m) (value a) % 2^32 := by
    rw [Nat.mul_comm (sp_r3 (value h) (value m) (value a) % 2^31) (2^32)]
    exact (Nat.mul_add_lt_is_or (by omega) _).symm
  have e6 : (sp_r1 (value h) (value m) (value a) % 2^32) * 2^32 |||
        sp_r0 (value h) (value m) (value a) % 2^32 =
      (sp_r1 (value h) (value m) (value a) % 2^32) * 2^32 +
        sp_r0 (value h) (value m) (value a) % 2^32 := by
    rw [Nat.mul_comm (sp_r1 (value h) (value m) (value a) % 2^32) (2^32)]
    exact (Nat.mul_add_lt_is_or (by omega) _).symm
  rw [e3, e6]

/-- C5: on well-formed operands, `hashMulAdd` computes exactly the
spec's seven diagonal partial products of the 32-bit limbs of the
operands' 128-bit values, propagates carries as `r2, r3, r0, r1` (each
modulo `2^64`), and reassembles the high/low output limbs from the
described shift pattern (written arithmetically). -/
theorem hashMulAdd_limb_decomposition (h m a : Uint128) (hwh : WF h)
    (hwm : WF m) (hwa : WF a) : hashMulAdd h m a = hashMulAddSpec h m a :=
  hashMulAdd_eq_spec_aux h m a hwh hwm hwa

theorem hashMulAdd_limb_decomposition_witness :
    WF ⟨123456789, 987654321⟩ ∧ WF magicRound ∧ WF ⟨42, 77⟩ ∧
    hashMulAdd ⟨123456789, 987654321⟩ magicRound ⟨42, 77⟩ =
      hashMulAddSpec ⟨123456789, 987654321⟩ magicRound ⟨42, 77⟩ :=
  ⟨by decide, by decide, by decide,
    hashMulAdd_limb_decomposition _ _ _ (by decide) (by decide) (by decide)⟩

/-! ## C2: the combiner modulo the Mersenne-like modulus 2^127 - 1 -/

/-- The 128x128 product decomposes into the seven exact diagonal sums of
32-bit limb products. -/
theorem value_mul_decomp (h m : Uint128) :
    value h * value m =
      ma_c0x h m + 2^32 * ma_c1x h m + 2^64 * ma_c2x h m + 2^96 * ma_c3x h m +
      2^128 * ma_c4x h m + 2^160 * ma_c5x h m + 2^192 * ma_c6x h m := by
  have dh : value h = ma_h3 h * 2^96 + ma_h2 h * 2^64 + ma_h1 h * 2^32 + ma_h0 h := by
    unfold value ma_h3 ma_h2 ma_h1 ma_h0 ma_lo32
    simp only [Nat.shiftLeft_eq, Nat.shiftRight_eq_div_pow]
    omega
  have dm : value m = ma_h3 m * 2^96 + ma_h2 m * 2^64 + ma_h1 m * 2^32 + ma_h0 m := by
    unfold value ma_h3 ma_h2 ma_h1 ma_h0 ma_lo32
    simp only [Nat.shiftLeft_eq, Nat.shiftRight_eq_div_pow]
    omega
  rw [dh, dm]
  unfold ma_c0x ma_c1x ma_c2x ma_c3x ma_c4x ma_c5x ma_c6x
  ring

/-- C2 counterexample: for the full-range operand `h = 2^96 - 1` (all low
96 bits set), `m = magicRound` and `a = 0`, the partial sum `c3`
overflows 64 bits and the result of `hashMulAdd` is NOT congruent to
`h*m + a` modulo `2^127 - 1`. -/
theorem hashMulAdd_mod_mersenne_ce :
    WF ⟨0xFFFFFFFF, 0xFFFFFFFFFFFFFFFF⟩ ∧ WF magicRound ∧ WF ⟨0, 0⟩ ∧
    value (hashMulAdd ⟨0xFFFFFFFF, 0xFFFFFFFFFFFFFFFF⟩ magicRound ⟨0, 0⟩) %
        (2^127 - 1) ≠
      (value ⟨0xFFFFFFFF, 0xFFFFFFFFFFFFFFFF⟩ * value magicRound +
        value ⟨0, 0⟩) % (2^127 - 1) :=
  ⟨by decide, by decide, by decide, by decide⟩

/-- C2 amended: whenever the four exact carry-chain sums `R2, R3, R0, R1`
fit in 64 bits (so no intermediate `uint64` addition wraps), the 128-bit
value of `hashMulAdd h m a` is congruent to `value h * value m + value a`
modulo `2^127 - 1`.  Full-range operands can violate these side
conditions, and then the congruence fails (see the counterexample). -/
theorem hashMulAdd_mod_mersenne (h m a : Uint128) (hwh : WF h) (hwm : WF m)
    (hwa : WF a)
    (hR2 : ma_R2x h m a < 2^64) (hR3 : ma_R3x h m a < 2^64)
    (hR0 : ma_R0x h m a < 2^64) (hR1 : ma_R1x h m a < 2^64) :
    value (hashMulAdd h m a) % (2^127 - 1) =
      (value h * value m + value a) % (2^127 - 1) := by
  obtain ⟨hh1, hh2⟩ := hwh
  obtain ⟨hm1, hm2⟩ := hwm
  obtain ⟨ha1, ha2⟩ := hwa
  have ec2 : ma_c2 h m = ma_c2x h m := by
    have e : ma_c2 h m = ma_c2x h m % 2^64 := rfl
    unfold ma_R2x at hR2
    omega
  have ec6 : ma_c6 h m = ma_c6x h m := by
    have e : ma_c6 h m = ma_c6x h m % 2^64 := rfl
    unfold ma_R2x at hR2
    omega
  have er2 : ma_r2 h m a = ma_R2x h m a := by
    unfold ma_r2 ma_R2x
    rw [ec2, ec6, Nat.shiftLeft_eq]
    unfold ma_R2x at hR2
    omega
  have ec3 : ma_c3 h m = ma_c3x h m := by
    have e : ma_c3 h m = ma_c3x h m % 2^64 := rfl
    unfold ma_R3x at hR3
    omega
  have er3 : ma_r3 h m a = ma_R3x h m a := by
    unfold ma_r3 ma_R3x
    rw [ec3, er2, Nat.shiftRight_eq_div_pow]
    unfold ma_R3x at hR3
    omega
  have ec0 : ma_c0 h m = ma_c0x h m := by
    have e : ma_c0 h m = ma_c0x h m % 2^64 := rfl
    unfold ma_R0x at hR0
    omega
  have ec4 : ma_c4 h m = ma_c4x h m := by
    have e : ma_c4 h m = ma_c4x h m % 2^64 := rfl
    unfold ma_R0x at hR0
    omega
  have er0 : ma_r0 h m a = ma_R0x h m a := by
    unfold ma_r0 ma_R0x
    rw [ec0, ec4, er3, Nat.shiftLeft_eq, Nat.shiftRight_eq_div_pow]
    unfold ma_R0x at hR0
    omega
  have ec1 : ma_c1 h m = ma_c1x h m := by
    have e : ma_c1 h m = ma_c1x h m % 2^64 := rfl
    unfold ma_R1x at hR1
    omega
  have ec5 : ma_c5 h m = ma_c5x h m := by
    have e : ma_c5 h m = ma_c5x h m % 2^64 := rfl
    unfold ma_R1x at hR1
    omega
  have er1 : ma_r1 h m a = ma_R1x h m a := by
    unfold ma_r1 ma_R1x
    rw [ec1, ec5, er0, Nat.shiftLeft_eq, Nat.shiftRight_eq_div_pow]
    unfold ma_R1x at hR1
    omega
  have hv : value (hashMulAdd h m a) =
      ma_R0x h m a % 2^32 + 2^32 * (ma_R1x h m a % 2^32) +
      2^64 * ((ma_R3x h m a % 2^31) * 2^32 + ma_R2x h m a % 2^32 +
        ma_R1x h m a / 2^32) := by
    unfold hashMulAdd value
    rw [er0, er1, er2, er3]
    have e1 : ((ma_R3x h m a <<< 33) % 2^64) >>> 1 =
        (ma_R3x h m a % 2^31) * 2^32 := by
      rw [Nat.shiftLeft_eq, Nat.shiftRight_eq_div_pow]
      omega
    have e2 : ((ma_R2x h m a <<< 32) % 2^64) >>> 32 = ma_R2x h m a % 2^32 := by
      rw [Nat.shiftLeft_eq, Nat.shiftRight_eq_div_pow]
      omega
    have e4 : (ma_R1x h m a <<< 32) % 2^64 = (ma_R1x h m a % 2^32) * 2^32 := by
      rw [Nat.shiftLeft_eq]
      omega
    have e5 : ((ma_R0x h m a <<< 32) % 2^64) >>> 32 = ma_R0x h m a % 2^32 := by
      rw [Nat.shiftLeft_eq, Nat.shiftRight_eq_div_pow]
      omega
    rw [e1, e2, e4, e5, Nat.shiftRight_eq_div_pow]
    have e3 : (ma_R3x h m a % 2^31) * 2^32 ||| ma_R2x h m a % 2^32 =
        (ma_R3x h m a % 2^31) * 2^32 + ma_R2x h m a % 2^32 := by
      rw [Nat.mul_comm (ma_R3x h m a % 2^31) (2^32)]
      exact (Nat.mul_add_lt_is_or (by omega) _).symm
    have e6 : (ma_R1x h m a % 2^32) * 2^32 ||| ma_R0x h m a % 2^32 =
        (ma_R1x h m a % 2^32) * 2^32 + ma_R0x h m a % 2^32 := by
      rw [Nat.mul_comm (ma_R1x h m a % 2^32) (2^32)]
      exact (Nat.mul_add_lt_is_or (by omega) _).symm
    rw [e3, e6]
    dsimp only
    omega
  have ea0 : ma_h0 a = a.low % 2^32 := by
    unfold ma_h0 ma_lo32
    rw [Nat.shiftLeft_eq, Nat.shiftRight_eq_div_pow]
    omega
  have ea1 : ma_h1 a = a.low / 2^32 := by
    unfold ma_h1
    rw [Nat.shiftRight_eq_div_pow]
  have key : ma_c0x h m + 2^32 * ma_c1x h m + 2^64 * ma_c2x h m +
      2^96 * ma_c3x h m + 2^128 * ma_c4x h m + 2^160 * ma_c5x h m +
      2^192 * ma_c6x h m + value a =
      (ma_R0x h m a % 2^32 + 2^32 * (ma_R1x h m a % 2^32) +
        2^64 * ((ma_R3x h m a % 2^31) * 2^32 + ma_R2x h m a % 2^32 +
          ma_R1x h m a / 2^32)) +
      (2^127 - 1) * (2 * ma_c4x h m + 2^33 * ma_c5x h m + 2^65 * ma_c6x h m +
        ma_R3x h m a / 2^31) := by
    unfold value ma_R1x ma_R0x ma_R3x ma_R2x
    rw [ea0, ea1]
    omega
  rw [hv, value_mul_decomp h m, key, Nat.add_mul_mod_self_left]

theorem hashMulAdd_mod_mersenne_witness :
    WF ⟨0, 3⟩ ∧ WF ⟨0, 5⟩ ∧ WF ⟨0, 7⟩ ∧
    ma_R2x ⟨0, 3⟩ ⟨0, 5⟩ ⟨0, 7⟩ < 2^64 ∧ ma_R3x ⟨0, 3⟩ ⟨0, 5⟩ ⟨0, 7⟩ < 2^64 ∧
    ma_R0x ⟨0, 3⟩ ⟨0, 5⟩ ⟨0, 7⟩ < 2^64 ∧ ma_R1x ⟨0, 3⟩ ⟨0, 5⟩ ⟨0, 7⟩ < 2^64 ∧
    value (hashMulAdd ⟨0, 3⟩ ⟨0, 5⟩ ⟨0, 7⟩) % (2^127 - 1) =
      (value ⟨0, 3⟩ * value ⟨0, 5⟩ + value ⟨0, 7⟩) % (2^127 - 1) :=
  ⟨by decide, by decide, by decide, by decide, by decide, by decide, by decide,
    hashMulAdd_mod_mersenne ⟨0, 3⟩ ⟨0, 5⟩ ⟨0, 7⟩ (by decide) (by decide)
      (by decide) (by decide) (by decide) (by decide) (by decide)⟩

/-! ## C10: the finalizer's 2^64 - 257 reduction chain -/

theorem redStep_high_lt (u : Uint128) : (redStep u).high < 2^64 := by
  unfold redStep; exact add_high_lt _ _

theorem redStep_low_lt (u : Uint128) : (redStep u).low < 2^64 := by
  unfold redStep; exact add_low_lt _ _

theorem redStep_value (u : Uint128) (hu1 : u.high < 2^64) (hu2 : u.low < 2^64) :
    value (redStep u) = 257 * u.high + u.low := by
  unfold redStep
  have h1 := add_value (mul64_128 u.high 0x101) ⟨0, u.low⟩
    (mul64_128_high_lt _ _) (mul64_128_low_lt _ _) (by norm_num)
    (by simpa using hu2)
  rw [h1, mul64_128_value u.high 0x101 hu1 (by norm_num)]
  unfold value
  dsimp only
  omega

theorem redStep_mod (u : Uint128) (hu1 : u.high < 2^64) (hu2 : u.low < 2^64) :
    value (redStep u) % (2^64 - 257) = value u % (2^64 - 257) := by
  rw [redStep_value u hu1 hu2]
  unfold value
  have e : u.high * 2^64 + u.low = (257 * u.high + u.low) + (2^64 - 257) * u.high := by
    omega
  rw [e, Nat.add_mul_mod_self_left]

/-- Fold one `2^64 ≡ 257` reduction of a value modulo `2^64 - 257`. -/
theorem mod_fold (v : Nat) :
    v % (2^64 - 257) = (257 * (v / 2^64) + v % 2^64) % (2^64 - 257) := by
  conv_lhs =>
    rw [show v = (257 * (v / 2^64) + v % 2^64) + (2^64 - 257) * (v / 2^64) from
      by omega]
  rw [Nat.add_mul_mod_self_left]

theorem addCorrect_mod (x y : Nat) (hx : x < 2^64) (hy : y < 2^64 - 257) :
    addCorrect x y % (2^64 - 257) = (x + y) % (2^64 - 257) := by
  simp only [addCorrect]
  split <;> omega

theorem addCorrect_lt (x y : Nat) : addCorrect x y < 2^64 := by
  simp only [addCorrect]
  split <;> omega

theorem finalA_lt (st : Uint128) (tl : Nat) : finalA st tl < 2^64 := by
  unfold finalA; exact addCorrect_lt _ _

theorem finalB_lt (st : Uint128) (tl : Nat) : finalB st tl < 2^64 := by
  unfold finalB; exact addCorrect_lt _ _

theorem finalizeTail_mod (A B : Nat) (hA : A < 2^64) (hB : B < 2^64) :
    finalizeTail A B % (2^64 - 257) = (A * B) % (2^64 - 257) := by
  have hP : A * B < 2^128 := by
    calc A * B ≤ (2^64 - 1) * (2^64 - 1) :=
          Nat.mul_le_mul (by omega) (by omega)
      _ < 2^128 := by norm_num
  have hv2 : value (redStep (redStep (mul64_128 A B))) =
      257 * ((257 * (A * B / 2^64) + A * B % 2^64) / 2^64) +
        (257 * (A * B / 2^64) + A * B % 2^64) % 2^64 := by
    rw [redStep_value _ (redStep_high_lt _) (redStep_low_lt _)]
    have hw := redStep_value (mul64_128 A B) (mul64_128_high_lt _ _)
      (mul64_128_low_lt _ _)
    have hrh := redStep_high_lt (mul64_128 A B)
    have hrl := redStep_low_lt (mul64_128 A B)
    have hh1 : (redStep (mul64_128 A B)).high =
        value (redStep (mul64_128 A B)) / 2^64 := by
      unfold value; omega
    have hl1 : (redStep (mul64_128 A B)).low =
        value (redStep (mul64_128 A B)) % 2^64 := by
      unfold value; omega
    rw [hh1, hl1, hw]
    have e1 : (mul64_128 A B).high = A * B / 2^64 % 2^64 := rfl
    have e2 : (mul64_128 A B).low = A * B % 2^64 := rfl
    rw [e1, e2]
    have e3 : A * B / 2^64 % 2^64 = A * B / 2^64 := by omega
    rw [e3]
  have hWFh := redStep_high_lt (redStep (mul64_128 A B))
  have hWFl := redStep_low_lt (redStep (mul64_128 A B))
  have eH : (redStep (redStep (mul64_128 A B))).high =
      value (redStep (redStep (mul64_128 A B))) / 2^64 := by
    unfold value; omega
  have eL : (redStep (redStep (mul64_128 A B))).low =
      value (redStep (redStep (mul64_128 A B))) % 2^64 := by
    unfold value; omega
  simp only [finalizeTail]
  rw [eH, eL, hv2]
  have hub : 257 * ((257 * (A * B / 2^64) + A * B % 2^64) / 2^64) +
      (257 * (A * B / 2^64) + A * B % 2^64) % 2^64 < 2^64 + 66049 := by
    omega
  have hfold1 : (A * B) % (2^64 - 257) =
      (257 * (A * B / 2^64) + A * B % 2^64) % (2^64 - 257) := mod_fold _
  have hfold2 : (257 * (A * B / 2^64) + A * B % 2^64) % (2^64 - 257) =
      (257 * ((257 * (A * B / 2^64) + A * B % 2^64) / 2^64) +
        (257 * (A * B / 2^64) + A * B % 2^64) % 2^64) % (2^64 - 257) :=
    mod_fold _
  rw [hfold1, hfold2]
  generalize (257 * ((257 * (A * B / 2^64) + A * B % 2^64) / 2^64) +
      (257 * (A * B / 2^64) + A * B % 2^64) % 2^64) = W at hub ⊢
  split <;> split <;> omega

/-- C10: each finalizer reduction step `h ↦ Add(mul64_128(h.high, 0x101),
{0, h.low})` never overflows 128 bits, computes `257*h.high + h.low`
exactly, and preserves the value modulo `2^64 - 257` (since `2^64 ≡ 257`);
the conditional wrapping `+257` correction of a lane sum with an addend
below `2^64 - 257` (as both `magicFinal` limbs are) likewise preserves
the residue; and consequently, for every input buffer, `hash`
returns exactly the canonicalized tail of `A*B`, a digest congruent to
`A*B` modulo `2^64 - 257`, where `A` and `B` are the two corrected
64-bit lane values computed in the finalizer. -/
theorem finalizer_digest_congruence (input : List Nat) (st u : Uint128)
    (x y : Nat) (hacc : hashAccum input = some st)
    (hu1 : u.high < 2^64) (hu2 : u.low < 2^64)
    (hx : x < 2^64) (hy : y < 2^64 - 257) :
    (257 * u.high + u.low < 2^128 ∧
      value (redStep u) = 257 * u.high + u.low ∧
      value (redStep u) % (2^64 - 257) = value u % (2^64 - 257)) ∧
    addCorrect x y % (2^64 - 257) = (x + y) % (2^64 - 257) ∧
    hash input = some (finalizeTail (finalA st (input.length % BlockSize))
      (finalB st (input.length % BlockSize))) ∧
    finalizeTail (finalA st (input.length % BlockSize))
        (finalB st (input.length % BlockSize)) % (2^64 - 257) =
      (finalA st (input.length % BlockSize) *
        finalB st (input.length % BlockSize)) % (2^64 - 257) := by
  refine ⟨⟨by omega, redStep_value u hu1 hu2, redStep_mod u hu1 hu2⟩,
    addCorrect_mod x y hx hy, ?_, finalizeTail_mod _ _ (finalA_lt _ _) (finalB_lt _ _)⟩
  unfold hash
  rw [hacc]
  rfl

theorem finalizer_digest_congruence_witness :
    (257 * (Uint128.mk 5 7).high + (Uint128.mk 5 7).low < 2^128 ∧
      value (redStep ⟨5, 7⟩) = 257 * (Uint128.mk 5 7).high + (Uint128.mk 5 7).low ∧
      value (redStep ⟨5, 7⟩) % (2^64 - 257) = value ⟨5, 7⟩ % (2^64 - 257)) ∧
    addCorrect 3 4 % (2^64 - 257) = (3 + 4) % (2^64 - 257) ∧
    hash [] = some (finalizeTail (finalA magicRound (([] : List Nat).length % BlockSize))
      (finalB magicRound (([] : List Nat).length % BlockSize))) ∧
    finalizeTail (finalA magicRound (([] : List Nat).length % BlockSize))
        (finalB magicRound (([] : List Nat).length % BlockSize)) % (2^64 - 257) =
      (finalA magicRound (([] : List Nat).length % BlockSize) *
        finalB magicRound (([] : List Nat).length % BlockSize)) % (2^64 - 257) :=
  finalizer_digest_congruence [] magicRound ⟨5, 7⟩ 3 4 (by decide) (by decide)
    (by decide) (by decide) (by decide)

end Pokecrypt
